import Mathlib

/-!
Verification of the batched translation pipeline of `translator_utils.py`
(PDF-Translator).

Python strings are modelled as lists of Unicode code points (`List Char`),
which matches Python's `len`, slicing and `str.split` semantics exactly.
The external translation client (`GoogleTranslator.translate`) is modelled
as an oracle `ℕ → Str → Option Str`: the first argument is the index of the
call (so the oracle can behave differently on every call), `none` models the
call raising an exception, `some s` models it returning the string `s`.
The source and target language parameters are absorbed into the oracle,
since the code only threads them into the client's constructor.
-/

/-- A Python string, as its sequence of code points. -/
abbrev Str := List Char

/-- The whitespace predicate of Python's `str.strip()` (restricted to the
ASCII whitespace characters; Unicode-only whitespace is not modelled). -/
def pyWS (c : Char) : Bool :=
  c == ' ' || c == '\t' || c == '\n' || c == '\r' || c == '\x0b' || c == '\x0c'

/-- Python's `s.strip()`: drop whitespace from both ends. -/
def pyStrip (s : Str) : Str :=
  ((s.dropWhile pyWS).reverse.dropWhile pyWS).reverse

/-- Python's `s.split("|||")`: split on every non-overlapping occurrence of
the three-bar core token, leftmost first. -/
def split3Bars : Str → List Str
  | '|' :: '|' :: '|' :: rest => [] :: split3Bars rest
  | c :: rest =>
    match split3Bars rest with
    | [] => [[c]]
    | p :: ps => (c :: p) :: ps
  | [] => [[]]

/-- One content block: `{'text': str, 'size': float}` (extracted line text
plus its font size; sizes are modelled as rationals). -/
structure Block where
  text : Str
  size : ℚ
deriving Repr, DecidableEq

instance : Inhabited Block := ⟨⟨[], 0⟩⟩

/-- `SEPARATOR = "\n|||\n"`. -/
def SEP : Str := '\n' :: '|' :: '|' :: '|' :: '\n' :: []

/-- One batch: `{'text': joined string, 'indices': member indices}`. -/
structure Batch where
  text : Str
  indices : List ℕ
deriving Repr, DecidableEq

/-- Python's `SEPARATOR.join(parts)`. -/
def sepJoin : List Str → Str
  | [] => []
  | [t] => t
  | t :: u :: rest => t ++ SEP ++ sepJoin (u :: rest)

/-- The running state of the batch-building loop of `translate_content`
(lines 66-69): committed batches, the texts and indices of the batch under
construction, and the running character count. -/
structure BatchState where
  batches : List Batch
  curText : List Str
  curIndices : List ℕ
  curCount : ℕ
deriving Repr, DecidableEq

/-- One iteration of the batching loop (lines 74-96): skip a fragment whose
stripped text is empty; if adding it would push the running count past 4000,
commit the current batch and restart from this fragment; otherwise append it
(counting its length plus a separator). -/
def batchStep (st : BatchState) (i : ℕ) (block : Block) : BatchState :=
  let text := pyStrip block.text
  if text = [] then st
  else if st.curCount + text.length > 4000 then
    { batches := st.batches ++ [⟨sepJoin st.curText, st.curIndices⟩],
      curText := [text], curIndices := [i], curCount := text.length }
  else
    { batches := st.batches,
      curText := st.curText ++ [text],
      curIndices := st.curIndices ++ [i],
      curCount := st.curCount + text.length + SEP.length }

/-- The batching loop over `enumerate(content_blocks)`, carrying the
absolute position `i`. -/
def batchLoop : List Block → ℕ → BatchState → BatchState
  | [], _, st => st
  | b :: rest, i, st => batchLoop rest (i + 1) (batchStep st i b)

/-- Lines 66-103 of `translate_content`: build all batches, committing the
last one if it is non-empty (`if current_batch_text:`). -/
def makeBatches (content_blocks : List Block) : List Batch :=
  let st := batchLoop content_blocks 0 ⟨[], [], [], 0⟩
  if st.curText = [] then st.batches
  else st.batches ++ [⟨sepJoin st.curText, st.curIndices⟩]

/-- `results[idx]['text'] = t` on the results list (out-of-range indices
leave the list unchanged, matching that the code only uses valid indices). -/
def setText : List Block → ℕ → Str → List Block
  | [], _, _ => []
  | b :: rest, 0, t => { b with text := t } :: rest
  | b :: rest, n + 1, t => b :: setText rest n t

/-- The fast-path scatter (lines 132-133):
`for idx, part in zip(indices, parts): results[idx]['text'] = part`. -/
def scatter : List Block → List (ℕ × Str) → List Block
  | res, [] => res
  | res, (idx, part) :: rest => scatter (setText res idx part) rest

/-- The per-member fallback (lines 137-141 and 145-149): for each member
index, call the client on that fragment's ORIGINAL (unstripped) text
`content_blocks[idx]['text']`; on success overwrite the result text, on
failure keep the original (`except: pass`). The second component counts
client calls. -/
def fallbackMembers (tr : ℕ → Str → Option Str) (content_blocks : List Block) :
    List ℕ → List Block → ℕ → List Block × ℕ
  | [], res, k => (res, k)
  | idx :: rest, res, k =>
    match tr k (content_blocks.getD idx default).text with
    | some t => fallbackMembers tr content_blocks rest (setText res idx t) (k + 1)
    | none => fallbackMembers tr content_blocks rest res (k + 1)

/-- Lines 110-149: process one batch. Call the client on the combined text;
on success split the response on `"|||"`, strip each part, and if the part
count matches the member count scatter the parts, otherwise fall back
per member; if the combined call raised, also fall back per member. -/
def processBatch (tr : ℕ → Str → Option Str) (content_blocks : List Block)
    (batch : Batch) (res : List Block) (k : ℕ) : List Block × ℕ :=
  match tr k batch.text with
  | some translated_chunk =>
    let parts := (split3Bars translated_chunk).map pyStrip
    if parts.length = batch.indices.length then
      (scatter res (batch.indices.zip parts), k + 1)
    else
      fallbackMembers tr content_blocks batch.indices res (k + 1)
  | none => fallbackMembers tr content_blocks batch.indices res (k + 1)

/-- The batch-processing loop (`for batch in batches:`). -/
def runBatches (tr : ℕ → Str → Option Str) (content_blocks : List Block) :
    List Batch → List Block → ℕ → List Block × ℕ
  | [], res, k => (res, k)
  | batch :: rest, res, k =>
    runBatches tr content_blocks rest
      (processBatch tr content_blocks batch res k).1
      (processBatch tr content_blocks batch res k).2

/-- `translate_content(content_blocks, ...)`: build the batches, start from
a copy of the input (`results = [b.copy() for b in content_blocks]`), and
process every batch. -/
def translate_content (tr : ℕ → Str → Option Str) (content_blocks : List Block) :
    List Block :=
  (runBatches tr content_blocks (makeBatches content_blocks) content_blocks 0).1

/-- Number of client calls (attempted translations) made by
`translate_content`. -/
def translateCalls (tr : ℕ → Str → Option Str) (content_blocks : List Block) : ℕ :=
  (runBatches tr content_blocks (makeBatches content_blocks) content_blocks 0).2

/-- The positions (in order) of the blocks whose stripped text is non-empty,
starting the numbering at `i`. -/
def nonEmptyIndicesFrom (i : ℕ) : List Block → List ℕ
  | [] => []
  | b :: rest =>
    if pyStrip b.text = [] then nonEmptyIndicesFrom (i + 1) rest
    else i :: nonEmptyIndicesFrom (i + 1) rest

/-- The positions of the blocks that take part in translation. -/
def nonEmptyIndices (content_blocks : List Block) : List ℕ :=
  nonEmptyIndicesFrom 0 content_blocks

/-- A paragraph of the produced document: either a heading with a level or
a body paragraph. -/
inductive DocxPara where
  | heading (level : ℕ) (text : Str)
  | paragraph (text : Str)
deriving Repr, DecidableEq

/-- `max(set(sizes), key=sizes.count)` with default 12 for an empty list:
an element of maximal multiplicity. Python iterates the set in an
unspecified (hash-based) order and `max` keeps the first element attaining
the maximal count; we fold in list order, which agrees with the code
whenever the most frequent size is unique. -/
def pyMode (sizes : List ℚ) : ℚ :=
  match sizes with
  | [] => 12
  | s :: rest =>
    rest.foldl (fun best x => if sizes.count x > sizes.count best then x else best) s

/-- The heading decision of `create_docx` (lines 173-183): the block is a
heading iff its size is at least mode + 2; then level 1 if the excess is
strictly more than 10, level 2 if strictly more than 5, else level 3. -/
def headingLevel (size mode : ℚ) : Option ℕ :=
  if size ≥ mode + 2 then
    some (if size - mode > 10 then 1 else if size - mode > 5 then 2 else 3)
  else none

/-- The loop body of `create_docx` (lines 167-187): emit one block as a
heading or body paragraph, given the mode size. -/
def renderBlock (mode_size : ℚ) (b : Block) : DocxPara :=
  match headingLevel b.size mode_size with
  | some l => DocxPara.heading l b.text
  | none => DocxPara.paragraph b.text

/-- `create_docx(translated_blocks)`, as the sequence of emitted paragraphs
(the docx container and byte buffer are not modelled). -/
def create_docx (translated_blocks : List Block) : List DocxPara :=
  translated_blocks.map (renderBlock (pyMode (translated_blocks.map Block.size)))

example : pyStrip " hi ".data = "hi".data := by decide
example : split3Bars "a|||b".data = ["a".data, "b".data] := by decide
example : split3Bars "a|||||b".data = ["a".data, "||b".data] := by decide
example : split3Bars "".data = [[]] := by decide
example : sepJoin ["a".data, "b".data] = "a\n|||\nb".data := by decide
example : makeBatches [⟨"Hello".data, 24⟩, ⟨"world".data, 12⟩, ⟨"".data, 12⟩, ⟨"Test".data, 12⟩]
    = [⟨"Hello\n|||\nworld\n|||\nTest".data, [0, 1, 3]⟩] := by decide

/-! ### Lemmas about the results array -/

theorem setText_length (res : List Block) (idx : ℕ) (t : Str) :
    (setText res idx t).length = res.length := by
  induction res generalizing idx with
  | nil => rfl
  | cons b rest ih =>
    cases idx with
    | zero => rfl
    | succ n => simpa [setText] using ih n

theorem getD_setText_ne (res : List Block) (idx j : ℕ) (t : Str) (d : Block)
    (h : j ≠ idx) : (setText res idx t).getD j d = res.getD j d := by
  induction res generalizing idx j with
  | nil => rfl
  | cons b rest ih =>
    cases idx with
    | zero =>
      cases j with
      | zero => exact absurd rfl h
      | succ m => rfl
    | succ n =>
      cases j with
      | zero => rfl
      | succ m =>
        simpa [setText, List.getD] using ih n m (fun hh => h (by rw [hh]))

theorem getD_setText_self (res : List Block) (idx : ℕ) (t : Str)
    (h : idx < res.length) :
    (setText res idx t).getD idx default = { res.getD idx default with text := t } := by
  induction res generalizing idx with
  | nil => simp at h
  | cons b rest ih =>
    cases idx with
    | zero => rfl
    | succ n =>
      simpa [setText, List.getD] using ih n (by simpa using h)

theorem size_getD_setText (res : List Block) (idx j : ℕ) (t : Str) :
    ((setText res idx t).getD j default).size = (res.getD j default).size := by
  by_cases hj : j = idx
  · subst hj
    by_cases h : j < res.length
    · rw [getD_setText_self res j t h]
    · have h1 : res.length ≤ j := Nat.le_of_not_lt h
      rw [List.getD_eq_default _ _ (by simpa [setText_length] using h1),
        List.getD_eq_default _ _ h1]
  · rw [getD_setText_ne res idx j t default hj]

theorem scatter_length (pairs : List (ℕ × Str)) (res : List Block) :
    (scatter res pairs).length = res.length := by
  induction pairs generalizing res with
  | nil => rfl
  | cons p rest ih => simpa [scatter, setText_length] using ih (setText res p.1 p.2)

theorem size_getD_scatter (pairs : List (ℕ × Str)) (res : List Block) (j : ℕ) :
    ((scatter res pairs).getD j default).size = (res.getD j default).size := by
  induction pairs generalizing res with
  | nil => rfl
  | cons p rest ih =>
    calc ((scatter (setText res p.1 p.2) rest).getD j default).size
        = ((setText res p.1 p.2).getD j default).size := ih _
      _ = (res.getD j default).size := size_getD_setText res p.1 j p.2

theorem getD_scatter_not_mem (pairs : List (ℕ × Str)) (res : List Block) (j : ℕ)
    (d : Block) (h : ∀ p ∈ pairs, p.1 ≠ j) :
    (scatter res pairs).getD j d = res.getD j d := by
  induction pairs generalizing res with
  | nil => rfl
  | cons p rest ih =>
    calc (scatter (setText res p.1 p.2) rest).getD j d
        = (setText res p.1 p.2).getD j d :=
          ih _ (fun q hq => h q (List.mem_cons_of_mem _ hq))
      _ = res.getD j d := getD_setText_ne res p.1 j p.2 d
          (fun hh => h p (List.mem_cons_self _ _) (by rw [hh]))

theorem fallbackMembers_length (tr : ℕ → Str → Option Str) (cbs : List Block)
    (indices : List ℕ) (res : List Block) (k : ℕ) :
    (fallbackMembers tr cbs indices res k).1.length = res.length := by
  induction indices generalizing res k with
  | nil => rfl
  | cons idx rest ih =>
    unfold fallbackMembers
    cases tr k (cbs.getD idx default).text with
    | none => simpa using ih res (k + 1)
    | some t => simpa [setText_length] using ih (setText res idx t) (k + 1)

theorem size_getD_fallbackMembers (tr : ℕ → Str → Option Str) (cbs : List Block)
    (indices : List ℕ) (res : List Block) (k j : ℕ) :
    ((fallbackMembers tr cbs indices res k).1.getD j default).size
      = (res.getD j default).size := by
  induction indices generalizing res k with
  | nil => rfl
  | cons idx rest ih =>
    unfold fallbackMembers
    cases tr k (cbs.getD idx default).text with
    | none => simpa using ih res (k + 1)
    | some t =>
      calc ((fallbackMembers tr cbs rest (setText res idx t) (k + 1)).1.getD j default).size
          = ((setText res idx t).getD j default).size := ih _ _
        _ = (res.getD j default).size := size_getD_setText res idx j t

theorem getD_fallbackMembers_not_mem (tr : ℕ → Str → Option Str) (cbs : List Block)
    (indices : List ℕ) (res : List Block) (k j : ℕ) (d : Block)
    (h : j ∉ indices) :
    (fallbackMembers tr cbs indices res k).1.getD j d = res.getD j d := by
  induction indices generalizing res k with
  | nil => rfl
  | cons idx rest ih =>
    unfold fallbackMembers
    have hj : j ∉ rest := fun hh => h (List.mem_cons_of_mem _ hh)
    have hne : j ≠ idx := fun hh => h (hh ▸ List.mem_cons_self _ _)
    cases tr k (cbs.getD idx default).text with
    | none => simpa using ih res (k + 1) hj
    | some t =>
      calc (fallbackMembers tr cbs rest (setText res idx t) (k + 1)).1.getD j d
          = (setText res idx t).getD j d := ih _ _ hj
        _ = res.getD j d := getD_setText_ne res idx j t d hne

theorem fallbackMembers_calls (tr : ℕ → Str → Option Str) (cbs : List Block)
    (indices : List ℕ) (res : List Block) (k : ℕ) :
    (fallbackMembers tr cbs indices res k).2 = k + indices.length := by
  induction indices generalizing res k with
  | nil => rfl
  | cons idx rest ih =>
    unfold fallbackMembers
    cases tr k (cbs.getD idx default).text with
    | none => rw [ih res (k + 1), List.length_cons]; omega
    | some t => rw [ih (setText res idx t) (k + 1), List.length_cons]; omega

theorem processBatch_length (tr : ℕ → Str → Option Str) (cbs : List Block)
    (batch : Batch) (res : List Block) (k : ℕ) :
    (processBatch tr cbs batch res k).1.length = res.length := by
  unfold processBatch
  cases tr k batch.text with
  | none => exact fallbackMembers_length tr cbs batch.indices res (k + 1)
  | some chunk =>
    by_cases h : ((split3Bars chunk).map pyStrip).length = batch.indices.length
    · simp only [h, if_true]
      exact scatter_length _ res
    · simp only [h, if_false]
      exact fallbackMembers_length tr cbs batch.indices res (k + 1)

theorem size_getD_processBatch (tr : ℕ → Str → Option Str) (cbs : List Block)
    (batch : Batch) (res : List Block) (k j : ℕ) :
    ((processBatch tr cbs batch res k).1.getD j default).size
      = (res.getD j default).size := by
  unfold processBatch
  cases tr k batch.text with
  | none => exact size_getD_fallbackMembers tr cbs batch.indices res (k + 1) j
  | some chunk =>
    by_cases h : ((split3Bars chunk).map pyStrip).length = batch.indices.length
    · simp only [h, if_true]
      exact size_getD_scatter _ res j
    · simp only [h, if_false]
      exact size_getD_fallbackMembers tr cbs batch.indices res (k + 1) j

theorem getD_processBatch_not_mem (tr : ℕ → Str → Option Str) (cbs : List Block)
    (batch : Batch) (res : List Block) (k j : ℕ) (d : Block)
    (h : j ∉ batch.indices) :
    (processBatch tr cbs batch res k).1.getD j d = res.getD j d := by
  unfold processBatch
  cases tr k batch.text with
  | none => exact getD_fallbackMembers_not_mem tr cbs batch.indices res (k + 1) j d h
  | some chunk =>
    by_cases hl : ((split3Bars chunk).map pyStrip).length = batch.indices.length
    · simp only [hl, if_true]
      refine getD_scatter_not_mem _ res j d ?_
      intro p hp
      have := List.of_mem_zip hp
      exact fun hh => h (hh ▸ this.1)
    · simp only [hl, if_false]
      exact getD_fallbackMembers_not_mem tr cbs batch.indices res (k + 1) j d h

theorem runBatches_length (tr : ℕ → Str → Option Str) (cbs : List Block)
    (bs : List Batch) (res : List Block) (k : ℕ) :
    (runBatches tr cbs bs res k).1.length = res.length := by
  induction bs generalizing res k with
  | nil => rfl
  | cons b rest ih =>
    unfold runBatches
    rw [ih _ _, processBatch_length]

theorem size_getD_runBatches (tr : ℕ → Str → Option Str) (cbs : List Block)
    (bs : List Batch) (res : List Block) (k j : ℕ) :
    ((runBatches tr cbs bs res k).1.getD j default).size
      = (res.getD j default).size := by
  induction bs generalizing res k with
  | nil => rfl
  | cons b rest ih =>
    unfold runBatches
    rw [ih _ _, size_getD_processBatch]

theorem getD_runBatches_not_mem (tr : ℕ → Str → Option Str) (cbs : List Block)
    (bs : List Batch) (res : List Block) (k j : ℕ) (d : Block)
    (h : ∀ b ∈ bs, j ∉ b.indices) :
    (runBatches tr cbs bs res k).1.getD j d = res.getD j d := by
  induction bs generalizing res k with
  | nil => rfl
  | cons b rest ih =>
    unfold runBatches
    rw [ih _ _ (fun b hb => h b (List.mem_cons_of_mem _ hb)),
      getD_processBatch_not_mem _ _ _ _ _ _ _ (h b (List.mem_cons_self _ _))]

/-! ### Lemmas about the batcher -/

/-- All member indices of a list of batches, in batch order. -/
def batchIndices (bs : List Batch) : List ℕ := (bs.map Batch.indices).flatten

theorem batchLoop_indices (blocks : List Block) : ∀ (i : ℕ) (st : BatchState),
    batchIndices (batchLoop blocks i st).batches ++ (batchLoop blocks i st).curIndices
      = (batchIndices st.batches ++ st.curIndices) ++ nonEmptyIndicesFrom i blocks := by
  induction blocks with
  | nil => intro i st; simp [batchLoop, nonEmptyIndicesFrom]
  | cons b rest ih =>
    intro i st
    simp only [batchLoop]
    rw [ih (i + 1) (batchStep st i b)]
    by_cases h : pyStrip b.text = []
    · simp [batchStep, nonEmptyIndicesFrom, h]
    · by_cases h2 : st.curCount + (pyStrip b.text).length > 4000
      · simp [batchStep, nonEmptyIndicesFrom, h, h2, batchIndices]
      · simp [batchStep, nonEmptyIndicesFrom, h, h2, batchIndices]

theorem batchLoop_cur_lengths (blocks : List Block) : ∀ (i : ℕ) (st : BatchState),
    st.curText.length = st.curIndices.length →
    (batchLoop blocks i st).curText.length = (batchLoop blocks i st).curIndices.length := by
  induction blocks with
  | nil => intro i st h; exact h
  | cons b rest ih =>
    intro i st h
    simp only [batchLoop]
    refine ih (i + 1) (batchStep st i b) ?_
    by_cases hb : pyStrip b.text = []
    · simpa [batchStep, hb] using h
    · by_cases h2 : st.curCount + (pyStrip b.text).length > 4000
      · simp [batchStep, hb, h2]
      · simp [batchStep, hb, h2, h]

theorem makeBatches_indices (blocks : List Block) :
    batchIndices (makeBatches blocks) = nonEmptyIndices blocks := by
  have hlen := batchLoop_cur_lengths blocks 0 ⟨[], [], [], 0⟩ rfl
  have hjoin := batchLoop_indices blocks 0 ⟨[], [], [], 0⟩
  unfold makeBatches
  by_cases h : (batchLoop blocks 0 ⟨[], [], [], 0⟩).curText = []
  · have hidx : (batchLoop blocks 0 ⟨[], [], [], 0⟩).curIndices = [] := by
      rw [h] at hlen
      exact List.eq_nil_of_length_eq_zero hlen.symm
    simp only [h, if_true]
    simpa [batchIndices, nonEmptyIndices, hidx] using hjoin
  · simp only [h, if_false]
    simpa [batchIndices, nonEmptyIndices] using hjoin

theorem mem_nonEmptyIndicesFrom (blocks : List Block) : ∀ (i x : ℕ),
    x ∈ nonEmptyIndicesFrom i blocks →
    i ≤ x ∧ x < i + blocks.length ∧
      pyStrip ((blocks.getD (x - i) default).text) ≠ [] := by
  induction blocks with
  | nil => intro i x hx; simp [nonEmptyIndicesFrom] at hx
  | cons b rest ih =>
    intro i x hx
    by_cases hb : pyStrip b.text = []
    · simp only [nonEmptyIndicesFrom, hb, if_true] at hx
      obtain ⟨h1, h2, h3⟩ := ih (i + 1) x hx
      refine ⟨by omega, by simp; omega, ?_⟩
      have : x - i = (x - (i + 1)) + 1 := by omega
      rw [this]
      simpa using h3
    · simp only [nonEmptyIndicesFrom, hb, if_false, List.mem_cons] at hx
      rcases hx with rfl | hx
      · refine ⟨le_refl x, by simp, ?_⟩
        simpa using hb
      · obtain ⟨h1, h2, h3⟩ := ih (i + 1) x hx
        refine ⟨by omega, by simp; omega, ?_⟩
        have : x - i = (x - (i + 1)) + 1 := by omega
        rw [this]
        simpa using h3

theorem pairwise_nonEmptyIndicesFrom (blocks : List Block) : ∀ (i : ℕ),
    (nonEmptyIndicesFrom i blocks).Pairwise (· < ·) := by
  induction blocks with
  | nil => intro i; simp [nonEmptyIndicesFrom]
  | cons b rest ih =>
    intro i
    by_cases hb : pyStrip b.text = []
    · simpa [nonEmptyIndicesFrom, hb] using ih (i + 1)
    · simp only [nonEmptyIndicesFrom, hb, if_false]
      refine List.pairwise_cons.2 ⟨?_, ih (i + 1)⟩
      intro x hx
      have := (mem_nonEmptyIndicesFrom rest (i + 1) x hx).1
      omega

theorem pairwise_batchIndices (blocks : List Block) :
    (batchIndices (makeBatches blocks)).Pairwise (· < ·) := by
  rw [makeBatches_indices]
  exact pairwise_nonEmptyIndicesFrom blocks 0

theorem batch_indices_sublist (blocks : List Block) (b : Batch)
    (hb : b ∈ makeBatches blocks) :
    b.indices.Sublist (batchIndices (makeBatches blocks)) :=
  List.sublist_flatten_of_mem (List.mem_map_of_mem Batch.indices hb)

theorem mem_batchIndices_bound (blocks : List Block) (x : ℕ)
    (hx : x ∈ batchIndices (makeBatches blocks)) : x < blocks.length := by
  rw [makeBatches_indices] at hx
  have := mem_nonEmptyIndicesFrom blocks 0 x hx
  omega

theorem mem_batchIndices_nonEmpty (blocks : List Block) (x : ℕ)
    (hx : x ∈ batchIndices (makeBatches blocks)) :
    pyStrip ((blocks.getD x default).text) ≠ [] := by
  rw [makeBatches_indices] at hx
  simpa using (mem_nonEmptyIndicesFrom blocks 0 x hx).2.2

/-! ### The character budget of batches -/

theorem sepJoin_append (l : List Str) (t : Str) (hl : l ≠ []) :
    sepJoin (l ++ [t]) = sepJoin l ++ SEP ++ t := by
  induction l with
  | nil => cases hl rfl
  | cons u rest ih =>
    cases rest with
    | nil => simp [sepJoin]
    | cons v rs =>
      have h2 := ih (by simp)
      simp only [List.cons_append] at h2 ⊢
      simp only [sepJoin, h2, List.append_assoc]

/-- The loop invariant behind the batch character budget: the joined current
text never exceeds the running count, and the running count of a current
batch with at least two members is at most `4000 + len(SEPARATOR)`. -/
def BatchInv (st : BatchState) : Prop :=
  (sepJoin st.curText).length ≤ st.curCount ∧
  (2 ≤ st.curText.length → st.curCount ≤ 4000 + SEP.length) ∧
  st.curText.length = st.curIndices.length ∧
  ∀ b ∈ st.batches, b.text.length ≤ 4000 + SEP.length ∨ b.indices.length ≤ 1

theorem batchStep_inv (st : BatchState) (i : ℕ) (blk : Block)
    (h : BatchInv st) : BatchInv (batchStep st i blk) := by
  obtain ⟨h1, h2, h3, h4⟩ := h
  unfold batchStep
  by_cases hb : pyStrip blk.text = []
  · simpa [hb] using ⟨h1, h2, h3, h4⟩
  · by_cases hcnt : st.curCount + (pyStrip blk.text).length > 4000
    · simp only [hb, if_false, hcnt, if_true]
      refine ⟨by simp [sepJoin], by simp, by simp, ?_⟩
      intro b hbb
      rcases List.mem_append.1 hbb with hold | hnew
      · exact h4 b hold
      · have hb' : b = ⟨sepJoin st.curText, st.curIndices⟩ := by simpa using hnew
        subst hb'
        by_cases hone : st.curIndices.length ≤ 1
        · exact Or.inr hone
        · left
          have hlen2 : 2 ≤ st.curText.length := by omega
          exact le_trans h1 (h2 hlen2)
    · simp only [hb, if_false, hcnt, if_false]
      unfold BatchInv
      dsimp only
      refine ⟨?_, ?_, by simp [h3], h4⟩
      · cases hc : st.curText with
        | nil =>
          simp only [hc, List.nil_append]
          rw [show sepJoin [pyStrip blk.text] = pyStrip blk.text from rfl]
          omega
        | cons u rest =>
          rw [← hc, sepJoin_append st.curText (pyStrip blk.text) (by simp [hc])]
          simp only [List.length_append]
          omega
      · intro _
        omega

theorem batchLoop_inv (blocks : List Block) : ∀ (i : ℕ) (st : BatchState),
    BatchInv st → BatchInv (batchLoop blocks i st) := by
  induction blocks with
  | nil => intro i st h; exact h
  | cons b rest ih =>
    intro i st h
    exact ih (i + 1) (batchStep st i b) (batchStep_inv st i b h)

theorem makeBatches_budget (blocks : List Block) :
    ∀ b ∈ makeBatches blocks,
      b.text.length ≤ 4000 + SEP.length ∨ b.indices.length ≤ 1 := by
  have hinv : BatchInv (batchLoop blocks 0 ⟨[], [], [], 0⟩) :=
    batchLoop_inv blocks 0 ⟨[], [], [], 0⟩
      ⟨by simp [sepJoin], by simp, rfl, by simp⟩
  obtain ⟨h1, h2, h3, h4⟩ := hinv
  intro b hb
  unfold makeBatches at hb
  by_cases h : (batchLoop blocks 0 ⟨[], [], [], 0⟩).curText = []
  · rw [if_pos h] at hb
    exact h4 b hb
  · rw [if_neg h] at hb
    rcases List.mem_append.1 hb with hold | hnew
    · exact h4 b hold
    · have hb' : b = ⟨sepJoin (batchLoop blocks 0 ⟨[], [], [], 0⟩).curText,
          (batchLoop blocks 0 ⟨[], [], [], 0⟩).curIndices⟩ := by simpa using hnew
      subst hb'
      by_cases hone : (batchLoop blocks 0 ⟨[], [], [], 0⟩).curIndices.length ≤ 1
      · exact Or.inr hone
      · left
        have hlen2 : 2 ≤ (batchLoop blocks 0 ⟨[], [], [], 0⟩).curText.length := by omega
        exact le_trans h1 (h2 hlen2)

theorem pyStrip_replicate (c : Char) (hc : pyWS c = false) (n : ℕ) :
    pyStrip (List.replicate n c) = List.replicate n c := by
  cases n with
  | zero => rfl
  | succ m =>
    have h1 : ∀ l : Str, List.dropWhile pyWS (c :: l) = c :: l := by
      intro l; simp [List.dropWhile_cons, hc]
    unfold pyStrip
    rw [List.replicate_succ, h1, ← List.replicate_succ, List.reverse_replicate,
      List.replicate_succ, h1, ← List.replicate_succ, List.reverse_replicate]

theorem repl_ne_nil (n : ℕ) (hn : n ≠ 0) (c : Char) : List.replicate n c ≠ ([] : Str) := by
  intro h
  have h2 := congrArg List.length h
  rw [List.length_replicate] at h2
  exact hn (by simpa using h2)

/-- The three-fragment input whose trimmed lengths are 3000, 1500, 2500. -/
def exBudget : List Block :=
  [⟨List.replicate 3000 'a', 12⟩, ⟨List.replicate 1500 'b', 12⟩,
   ⟨List.replicate 2500 'c', 12⟩]

theorem makeBatches_exBudget :
    makeBatches exBudget =
      [⟨List.replicate 3000 'a', [0]⟩,
       ⟨List.replicate 1500 'b' ++ SEP ++ List.replicate 2500 'c', [1, 2]⟩] := by
  have hA := pyStrip_replicate 'a' (by decide) 3000
  have hB := pyStrip_replicate 'b' (by decide) 1500
  have hC := pyStrip_replicate 'c' (by decide) 2500
  have s1 : batchStep ⟨[], [], [], 0⟩ 0 ⟨List.replicate 3000 'a', 12⟩
      = ⟨[], [List.replicate 3000 'a'], [0], 3005⟩ := by
    unfold batchStep
    rw [show (⟨List.replicate 3000 'a', 12⟩ : Block).text = List.replicate 3000 'a' from rfl,
      hA, if_neg (repl_ne_nil 3000 (by norm_num) 'a'),
      if_neg (by rw [List.length_replicate]; norm_num)]
    simp only [List.nil_append, List.length_replicate]
    rfl
  have s2 : batchStep ⟨[], [List.replicate 3000 'a'], [0], 3005⟩ 1
      ⟨List.replicate 1500 'b', 12⟩
      = ⟨[⟨List.replicate 3000 'a', [0]⟩], [List.replicate 1500 'b'], [1], 1500⟩ := by
    unfold batchStep
    rw [show (⟨List.replicate 1500 'b', 12⟩ : Block).text = List.replicate 1500 'b' from rfl,
      hB, if_neg (repl_ne_nil 1500 (by norm_num) 'b'),
      if_pos (by rw [List.length_replicate]; norm_num)]
    simp only [List.nil_append, List.length_replicate]
    rfl
  have s3 : batchStep ⟨[⟨List.replicate 3000 'a', [0]⟩], [List.replicate 1500 'b'], [1], 1500⟩ 2
      ⟨List.replicate 2500 'c', 12⟩
      = ⟨[⟨List.replicate 3000 'a', [0]⟩],
         [List.replicate 1500 'b', List.replicate 2500 'c'], [1, 2], 4005⟩ := by
    unfold batchStep
    rw [show (⟨List.replicate 2500 'c', 12⟩ : Block).text = List.replicate 2500 'c' from rfl,
      hC, if_neg (repl_ne_nil 2500 (by norm_num) 'c'),
      if_neg (by rw [List.length_replicate]; norm_num)]
    simp only [List.length_replicate]
    rfl
  have hloop : batchLoop exBudget 0 ⟨[], [], [], 0⟩
      = ⟨[⟨List.replicate 3000 'a', [0]⟩],
         [List.replicate 1500 'b', List.replicate 2500 'c'], [1, 2], 4005⟩ := by
    show batchLoop [⟨List.replicate 1500 'b', 12⟩, ⟨List.replicate 2500 'c', 12⟩] 1
        (batchStep ⟨[], [], [], 0⟩ 0 ⟨List.replicate 3000 'a', 12⟩) = _
    rw [s1]
    show batchLoop [⟨List.replicate 2500 'c', 12⟩] 2
        (batchStep ⟨[], [List.replicate 3000 'a'], [0], 3005⟩ 1 ⟨List.replicate 1500 'b', 12⟩) = _
    rw [s2]
    show batchLoop [] 3
        (batchStep ⟨[⟨List.replicate 3000 'a', [0]⟩], [List.replicate 1500 'b'], [1], 1500⟩ 2
          ⟨List.replicate 2500 'c', 12⟩) = _
    rw [s3]
    rfl
  unfold makeBatches
  rw [hloop]
  rw [if_neg (List.cons_ne_nil _ _)]
  rfl

/-- The two 3000-character fragments of the budget-boundary scenario. -/
def exTwo3000 : List Block :=
  [⟨List.replicate 3000 'a', 12⟩, ⟨List.replicate 3000 'b', 12⟩]

theorem makeBatches_exTwo3000 :
    makeBatches exTwo3000 =
      [⟨List.replicate 3000 'a', [0]⟩, ⟨List.replicate 3000 'b', [1]⟩] := by
  have hA := pyStrip_replicate 'a' (by decide) 3000
  have hB := pyStrip_replicate 'b' (by decide) 3000
  have s1 : batchStep ⟨[], [], [], 0⟩ 0 ⟨List.replicate 3000 'a', 12⟩
      = ⟨[], [List.replicate 3000 'a'], [0], 3005⟩ := by
    unfold batchStep
    rw [show (⟨List.replicate 3000 'a', 12⟩ : Block).text = List.replicate 3000 'a' from rfl,
      hA, if_neg (repl_ne_nil 3000 (by norm_num) 'a'),
      if_neg (by rw [List.length_replicate]; norm_num)]
    simp only [List.nil_append, List.length_replicate]
    rfl
  have s2 : batchStep ⟨[], [List.replicate 3000 'a'], [0], 3005⟩ 1
      ⟨List.replicate 3000 'b', 12⟩
      = ⟨[⟨List.replicate 3000 'a', [0]⟩], [List.replicate 3000 'b'], [1], 3000⟩ := by
    unfold batchStep
    rw [show (⟨List.replicate 3000 'b', 12⟩ : Block).text = List.replicate 3000 'b' from rfl,
      hB, if_neg (repl_ne_nil 3000 (by norm_num) 'b'),
      if_pos (by rw [List.length_replicate]; norm_num)]
    simp only [List.nil_append, List.length_replicate]
    rfl
  have hloop : batchLoop exTwo3000 0 ⟨[], [], [], 0⟩
      = ⟨[⟨List.replicate 3000 'a', [0]⟩], [List.replicate 3000 'b'], [1], 3000⟩ := by
    show batchLoop [⟨List.replicate 3000 'b', 12⟩] 1
        (batchStep ⟨[], [], [], 0⟩ 0 ⟨List.replicate 3000 'a', 12⟩) = _
    rw [s1]
    show batchLoop [] 2
        (batchStep ⟨[], [List.replicate 3000 'a'], [0], 3005⟩ 1 ⟨List.replicate 3000 'b', 12⟩) = _
    rw [s2]
    rfl
  unfold makeBatches
  rw [hloop, if_neg (List.cons_ne_nil _ _)]
  rfl

/-! ### Fast-path and fallback behaviour at member positions -/

instance : Inhabited Batch := ⟨⟨[], []⟩⟩

theorem getD_mem_of_lt (l : List ℕ) (j d : ℕ) (h : j < l.length) :
    l.getD j d ∈ l := by
  induction l generalizing j with
  | nil => simp at h
  | cons x rest ih =>
    cases j with
    | zero => exact List.mem_cons_self _ _
    | succ m => exact List.mem_cons_of_mem _ (ih m (by simpa using h))

theorem getD_scatter_zip (indices : List ℕ) (parts : List Str) (res : List Block)
    (hdist : indices.Pairwise (· ≠ ·))
    (hlen : indices.length = parts.length)
    (j : ℕ) (hj : j < indices.length)
    (hvalid : indices.getD j 0 < res.length) :
    (scatter res (indices.zip parts)).getD (indices.getD j 0) default
      = { res.getD (indices.getD j 0) default with text := parts.getD j [] } := by
  induction indices generalizing parts res j with
  | nil => simp at hj
  | cons idx rest ih =>
    cases parts with
    | nil => simp at hlen
    | cons p ps =>
      have hhead : ∀ x ∈ rest, idx ≠ x := (List.pairwise_cons.1 hdist).1
      have htail : rest.Pairwise (· ≠ ·) := (List.pairwise_cons.1 hdist).2
      cases j with
      | zero =>
        simp only [List.getD_cons_zero] at hvalid ⊢
        show (scatter (setText res idx p) (rest.zip ps)).getD idx default = _
        rw [getD_scatter_not_mem _ _ _ _ ?_, getD_setText_self res idx p hvalid]
        intro q hq
        exact fun hh => hhead q.1 (List.of_mem_zip hq).1 hh.symm
      | succ m =>
        simp only [List.getD_cons_succ] at hvalid ⊢
        have hm : m < rest.length := by simpa using hj
        have hne : idx ≠ rest.getD m 0 := hhead _ (getD_mem_of_lt rest m 0 hm)
        show (scatter (setText res idx p) (rest.zip ps)).getD (rest.getD m 0) default = _
        rw [ih ps (setText res idx p) htail (by simpa using hlen) m hm
          (by rw [setText_length]; exact hvalid)]
        rw [getD_setText_ne res idx (rest.getD m 0) p default (fun hh => hne hh.symm)]

theorem getD_fallbackMembers_spec (tr : ℕ → Str → Option Str) (cbs : List Block)
    (indices : List ℕ) (res : List Block) (k : ℕ)
    (hdist : indices.Pairwise (· ≠ ·))
    (j : ℕ) (hj : j < indices.length)
    (hvalid : indices.getD j 0 < res.length) :
    (fallbackMembers tr cbs indices res k).1.getD (indices.getD j 0) default
      = (tr (k + j) (cbs.getD (indices.getD j 0) default).text).elim
          (res.getD (indices.getD j 0) default)
          (fun t => { res.getD (indices.getD j 0) default with text := t }) := by
  induction indices generalizing res k j with
  | nil => simp at hj
  | cons idx rest ih =>
    have hhead : ∀ x ∈ rest, idx ≠ x := (List.pairwise_cons.1 hdist).1
    have htail : rest.Pairwise (· ≠ ·) := (List.pairwise_cons.1 hdist).2
    have hnotmem : idx ∉ rest := fun hmem => hhead idx hmem rfl
    cases j with
    | zero =>
      simp only [List.getD_cons_zero, Nat.add_zero] at hvalid ⊢
      unfold fallbackMembers
      cases htr : tr k (cbs.getD idx default).text with
      | none =>
        rw [getD_fallbackMembers_not_mem tr cbs rest res (k + 1) idx default hnotmem]
        simp [Option.elim]
      | some t =>
        rw [getD_fallbackMembers_not_mem tr cbs rest (setText res idx t) (k + 1) idx
          default hnotmem]
        rw [getD_setText_self res idx t hvalid]
        simp [Option.elim]
    | succ m =>
      simp only [List.getD_cons_succ] at hvalid ⊢
      have hm : m < rest.length := by simpa using hj
      have hne : idx ≠ rest.getD m 0 := hhead _ (getD_mem_of_lt rest m 0 hm)
      have hk : k + 1 + m = k + (m + 1) := by omega
      unfold fallbackMembers
      cases htr : tr k (cbs.getD idx default).text with
      | none =>
        rw [ih res (k + 1) htail m hm hvalid, hk]
      | some t =>
        rw [ih (setText res idx t) (k + 1) htail m hm
          (by rw [setText_length]; exact hvalid), hk]
        rw [getD_setText_ne res idx (rest.getD m 0) t default (fun hh => hne hh.symm)]

theorem getD_mem_of_lt' {α : Type} [Inhabited α] (l : List α) (j : ℕ)
    (h : j < l.length) : l.getD j default ∈ l := by
  induction l generalizing j with
  | nil => simp at h
  | cons x rest ih =>
    cases j with
    | zero => exact List.mem_cons_self _ _
    | succ m => exact List.mem_cons_of_mem _ (ih m (by simpa using h))

/-! ### Lemmas about the document writer -/

theorem foldl_mode_spec (sizes : List ℚ) : ∀ (rest : List ℚ) (s : ℚ),
    (rest.foldl (fun best x => if sizes.count x > sizes.count best then x else best) s = s ∨
      rest.foldl (fun best x => if sizes.count x > sizes.count best then x else best) s ∈ rest) ∧
    sizes.count s ≤
      sizes.count (rest.foldl (fun best x => if sizes.count x > sizes.count best then x else best) s) ∧
    ∀ x ∈ rest, sizes.count x ≤
      sizes.count (rest.foldl (fun best x => if sizes.count x > sizes.count best then x else best) s) := by
  intro rest
  induction rest with
  | nil => intro s; exact ⟨Or.inl rfl, le_refl _, by simp⟩
  | cons x xs ih =>
    intro s
    simp only [List.foldl_cons]
    by_cases h : sizes.count x > sizes.count s
    · simp only [h, if_true]
      obtain ⟨hmem, hinit, hrest⟩ := ih x
      refine ⟨?_, le_trans (le_of_lt h) hinit, ?_⟩
      · rcases hmem with heq | hmem
        · refine Or.inr ?_
          rw [heq]
          exact List.mem_cons_self _ _
        · exact Or.inr (List.mem_cons_of_mem _ hmem)
      · intro y hy
        rcases List.mem_cons.1 hy with rfl | hy2
        · exact hinit
        · exact hrest y hy2
    · simp only [h, if_false]
      obtain ⟨hmem, hinit, hrest⟩ := ih s
      refine ⟨?_, hinit, ?_⟩
      · rcases hmem with heq | hmem
        · exact Or.inl heq
        · exact Or.inr (List.mem_cons_of_mem _ hmem)
      · intro y hy
        rcases List.mem_cons.1 hy with rfl | hy2
        · exact le_trans (le_of_not_lt h) hinit
        · exact hrest y hy2

theorem pyMode_spec (sizes : List ℚ) (hne : sizes ≠ []) :
    pyMode sizes ∈ sizes ∧ ∀ x ∈ sizes, sizes.count x ≤ sizes.count (pyMode sizes) := by
  cases sizes with
  | nil => cases hne rfl
  | cons s rest =>
    obtain ⟨hmem, hinit, hrest⟩ := foldl_mode_spec (s :: rest) rest s
    have hpm : pyMode (s :: rest)
        = rest.foldl
            (fun best x => if (s :: rest).count x > (s :: rest).count best then x else best) s := rfl
    refine ⟨?_, ?_⟩
    · rw [hpm]
      rcases hmem with heq | hmem2
      · rw [heq]
        exact List.mem_cons_self _ _
      · exact List.mem_cons_of_mem _ hmem2
    · intro x hx
      rw [hpm]
      rcases List.mem_cons.1 hx with rfl | hx2
      · exact hinit
      · exact hrest x hx2

theorem getD_map_lt {α β : Type} (f : α → β) (l : List α) (i : ℕ)
    (h : i < l.length) (d : β) (d' : α) :
    (l.map f).getD i d = f (l.getD i d') := by
  induction l generalizing i with
  | nil => simp at h
  | cons a rest ih =>
    cases i with
    | zero => rfl
    | succ m => exact ih m (by simpa using h)

theorem headingLevel_cases (sz mode : ℚ) (t : Str) :
    (match headingLevel sz mode with
      | some l => DocxPara.heading l t
      | none => DocxPara.paragraph t)
      = (if sz > mode + 10 then DocxPara.heading 1 t
        else if sz > mode + 5 then DocxPara.heading 2 t
        else if sz ≥ mode + 2 then DocxPara.heading 3 t
        else DocxPara.paragraph t) := by
  unfold headingLevel
  split_ifs with h1 h2 h3 h4 h5 h6 h7 <;> first
    | rfl
    | (exfalso; linarith)

theorem renderBlock_cases (mode : ℚ) (b : Block) :
    renderBlock mode b
      = (if b.size > mode + 10 then DocxPara.heading 1 b.text
        else if b.size > mode + 5 then DocxPara.heading 2 b.text
        else if b.size ≥ mode + 2 then DocxPara.heading 3 b.text
        else DocxPara.paragraph b.text) :=
  headingLevel_cases b.size mode b.text

/-! ### Per-batch behaviour inside the pipeline -/

theorem runBatches_append (tr : ℕ → Str → Option Str) (cbs : List Block)
    (bs1 bs2 : List Batch) (res : List Block) (k : ℕ) :
    runBatches tr cbs (bs1 ++ bs2) res k
      = runBatches tr cbs bs2 (runBatches tr cbs bs1 res k).1
          (runBatches tr cbs bs1 res k).2 := by
  induction bs1 generalizing res k with
  | nil => rfl
  | cons b rest ih =>
    simp only [List.cons_append, runBatches]
    exact ih _ _

theorem mem_batchIndices_of (bs : List Batch) (bb : Batch) (hb : bb ∈ bs)
    (x : ℕ) (hx : x ∈ bb.indices) : x ∈ batchIndices bs :=
  List.mem_flatten.2 ⟨bb.indices, List.mem_map_of_mem Batch.indices hb, hx⟩

theorem batch_decompose (blocks : List Block) (m : ℕ)
    (hm : m < (makeBatches blocks).length) :
    makeBatches blocks
      = (makeBatches blocks).take m
        ++ (makeBatches blocks).getD m default :: (makeBatches blocks).drop (m + 1) ∧
    (makeBatches blocks).take (m + 1)
      = (makeBatches blocks).take m ++ [(makeBatches blocks).getD m default] ∧
    (makeBatches blocks).getD m default ∈ makeBatches blocks ∧
    ∀ x ∈ ((makeBatches blocks).getD m default).indices,
      x ∉ batchIndices ((makeBatches blocks).take m) ∧
      x ∉ batchIndices ((makeBatches blocks).drop (m + 1)) := by
  have hsplit : makeBatches blocks
      = (makeBatches blocks).take m
        ++ (makeBatches blocks).getD m default :: (makeBatches blocks).drop (m + 1) := by
    conv_lhs => rw [← List.take_append_drop m (makeBatches blocks)]
    rw [List.drop_eq_getElem_cons hm, List.getD_eq_getElem _ default hm]
  have htake : (makeBatches blocks).take (m + 1)
      = (makeBatches blocks).take m ++ [(makeBatches blocks).getD m default] := by
    rw [List.getD_eq_getElem _ default hm]
    exact (List.take_concat_get' _ m hm).symm
  have hmem : (makeBatches blocks).getD m default ∈ makeBatches blocks :=
    getD_mem_of_lt' _ m hm
  refine ⟨hsplit, htake, hmem, ?_⟩
  have hpw := pairwise_batchIndices blocks
  rw [hsplit] at hpw
  have hsplit2 : batchIndices
      ((makeBatches blocks).take m
        ++ (makeBatches blocks).getD m default :: (makeBatches blocks).drop (m + 1))
      = batchIndices ((makeBatches blocks).take m)
        ++ (((makeBatches blocks).getD m default).indices
          ++ batchIndices ((makeBatches blocks).drop (m + 1))) := by
    simp [batchIndices]
  rw [hsplit2] at hpw
  obtain ⟨hpre, hmid, hcross⟩ := List.pairwise_append.1 hpw
  obtain ⟨hb, hdrop, hcross2⟩ := List.pairwise_append.1 hmid
  intro x hx
  constructor
  · intro hmem2
    exact absurd (hcross x hmem2 _ (List.mem_append_left _ hx)) (lt_irrefl x)
  · intro hmem2
    exact absurd (hcross2 x hx _ hmem2) (lt_irrefl x)

theorem runBatches_batch_fast (tr : ℕ → Str → Option Str) (cbs : List Block)
    (pre post : List Batch) (b : Batch) (res : List Block) (chunk : Str)
    (hdistb : b.indices.Pairwise (· ≠ ·))
    (hvalidb : ∀ x ∈ b.indices, x < res.length)
    (hpre : ∀ x ∈ b.indices, x ∉ batchIndices pre)
    (hpost : ∀ x ∈ b.indices, x ∉ batchIndices post)
    (hcall : tr (runBatches tr cbs pre res 0).2 b.text = some chunk)
    (haligned : ((split3Bars chunk).map pyStrip).length = b.indices.length) :
    ∀ j, j < b.indices.length →
      (runBatches tr cbs (pre ++ b :: post) res 0).1.getD (b.indices.getD j 0) default
        = { res.getD (b.indices.getD j 0) default with
            text := ((split3Bars chunk).map pyStrip).getD j [] } := by
  intro j hj
  have hidx : b.indices.getD j 0 ∈ b.indices := getD_mem_of_lt _ _ _ hj
  have hpb : processBatch tr cbs b (runBatches tr cbs pre res 0).1
        (runBatches tr cbs pre res 0).2
      = (scatter (runBatches tr cbs pre res 0).1
          (b.indices.zip ((split3Bars chunk).map pyStrip)),
        (runBatches tr cbs pre res 0).2 + 1) := by
    unfold processBatch
    rw [hcall]
    simp only [haligned, if_true]
  rw [runBatches_append]
  show (runBatches tr cbs post
      (processBatch tr cbs b (runBatches tr cbs pre res 0).1
        (runBatches tr cbs pre res 0).2).1
      (processBatch tr cbs b (runBatches tr cbs pre res 0).1
        (runBatches tr cbs pre res 0).2).2).1.getD (b.indices.getD j 0) default = _
  rw [hpb]
  rw [getD_runBatches_not_mem tr cbs post _ _ _ default
    (fun bb hbb hin => hpost _ hidx (mem_batchIndices_of post bb hbb _ hin))]
  rw [getD_scatter_zip b.indices ((split3Bars chunk).map pyStrip)
    (runBatches tr cbs pre res 0).1 hdistb haligned.symm j hj
    (by rw [runBatches_length]; exact hvalidb _ hidx)]
  rw [getD_runBatches_not_mem tr cbs pre res 0 _ default
    (fun bb hbb hin => hpre _ hidx (mem_batchIndices_of pre bb hbb _ hin))]

theorem runBatches_batch_fallback (tr : ℕ → Str → Option Str) (cbs : List Block)
    (pre post : List Batch) (b : Batch) (res : List Block)
    (hdistb : b.indices.Pairwise (· ≠ ·))
    (hvalidb : ∀ x ∈ b.indices, x < res.length)
    (hpre : ∀ x ∈ b.indices, x ∉ batchIndices pre)
    (hpost : ∀ x ∈ b.indices, x ∉ batchIndices post)
    (hfail : tr (runBatches tr cbs pre res 0).2 b.text = none ∨
      ∃ chunk, tr (runBatches tr cbs pre res 0).2 b.text = some chunk ∧
        ((split3Bars chunk).map pyStrip).length ≠ b.indices.length) :
    processBatch tr cbs b (runBatches tr cbs pre res 0).1
        (runBatches tr cbs pre res 0).2
      = fallbackMembers tr cbs b.indices (runBatches tr cbs pre res 0).1
          ((runBatches tr cbs pre res 0).2 + 1) ∧
    ∀ j, j < b.indices.length →
      (runBatches tr cbs (pre ++ b :: post) res 0).1.getD (b.indices.getD j 0) default
        = (tr ((runBatches tr cbs pre res 0).2 + 1 + j)
            (cbs.getD (b.indices.getD j 0) default).text).elim
            (res.getD (b.indices.getD j 0) default)
            (fun t => { res.getD (b.indices.getD j 0) default with text := t }) := by
  have hpb : processBatch tr cbs b (runBatches tr cbs pre res 0).1
        (runBatches tr cbs pre res 0).2
      = fallbackMembers tr cbs b.indices (runBatches tr cbs pre res 0).1
          ((runBatches tr cbs pre res 0).2 + 1) := by
    unfold processBatch
    rcases hfail with hnone | ⟨chunk, hsome, hlen⟩
    · rw [hnone]
    · rw [hsome]
      simp only [hlen, if_false]
  refine ⟨hpb, ?_⟩
  intro j hj
  have hidx : b.indices.getD j 0 ∈ b.indices := getD_mem_of_lt _ _ _ hj
  have hr1 : (runBatches tr cbs pre res 0).1.getD (b.indices.getD j 0) default
      = res.getD (b.indices.getD j 0) default :=
    getD_runBatches_not_mem tr cbs pre res 0 _ default
      (fun bb hbb hin => hpre _ hidx (mem_batchIndices_of pre bb hbb _ hin))
  rw [runBatches_append]
  show (runBatches tr cbs post
      (processBatch tr cbs b (runBatches tr cbs pre res 0).1
        (runBatches tr cbs pre res 0).2).1
      (processBatch tr cbs b (runBatches tr cbs pre res 0).1
        (runBatches tr cbs pre res 0).2).2).1.getD (b.indices.getD j 0) default = _
  rw [hpb]
  rw [getD_runBatches_not_mem tr cbs post _ _ _ default
    (fun bb hbb hin => hpost _ hidx (mem_batchIndices_of post bb hbb _ hin))]
  rw [getD_fallbackMembers_spec tr cbs b.indices (runBatches tr cbs pre res 0).1
    ((runBatches tr cbs pre res 0).2 + 1) hdistb j hj
    (by rw [runBatches_length]; exact hvalidb _ hidx)]
  rw [hr1]

/-! ### Example inputs and oracles used in witnesses and counterexamples -/

/-- The four-fragment input of the spec scenario (section 8). -/
def exBlocks : List Block :=
  [⟨"Hello".data, 24⟩, ⟨"world".data, 12⟩, ⟨"".data, 12⟩, ⟨"Test".data, 12⟩]

/-- A client that returns every combined text unchanged (a deterministic,
separator-preserving transform). -/
def echoTr : ℕ → Str → Option Str := fun _ s => some s

/-- A client whose answer depends on surrounding whitespace: on the stripped
text `"hi"` it answers with an extra separator (forcing the count-mismatch
fallback), on the unstripped `" hi "` it answers `"ok"`. -/
def exTrC3 : Str → Option Str := fun s =>
  if s = "hi".data then some "a|||b".data
  else if s = " hi ".data then some "ok".data
  else none

/-- An input whose fragments are all empty after stripping. -/
def exEmptyBlocks : List Block := [⟨"".data, 12⟩, ⟨"  ".data, 3⟩]

/-- Sizes 12, 12, 22: the mode is 12 and the third block exceeds it by
exactly 10. -/
def exHeading : List Block := [⟨"a".data, 12⟩, ⟨"b".data, 12⟩, ⟨"c".data, 22⟩]

theorem block_eq_text_update {a b : Block} (h : a.size = b.size) :
    a = { b with text := a.text } := by
  cases a with
  | mk ta sa =>
    cases b with
    | mk tb sb =>
      simp only [Block.mk.injEq]
      exact ⟨trivial, h⟩

theorem batchLoop_all_empty (blocks : List Block)
    (hall : ∀ b ∈ blocks, pyStrip b.text = []) :
    ∀ (i : ℕ) (st : BatchState), batchLoop blocks i st = st := by
  induction blocks with
  | nil => intro i st; rfl
  | cons b rest ih =>
    intro i st
    have hb : pyStrip b.text = [] := hall b (List.mem_cons_self _ _)
    have hstep : batchStep st i b = st := by
      unfold batchStep
      rw [if_pos hb]
    show batchLoop rest (i + 1) (batchStep st i b) = st
    rw [hstep]
    exact ih (fun x hx => hall x (List.mem_cons_of_mem _ hx)) (i + 1) st

/-! ### The claims -/

/-- C1: for every input sequence of fragments and every behaviour of the
translation client (any per-call answer, including raising on any call),
`translate_content` returns a sequence of the same length as the input in
which the element at each position `i` is the input element at position `i`
with (at most) its text replaced. -/
theorem C1_output_parallel_to_input (tr : ℕ → Str → Option Str)
    (blocks : List Block) :
    (translate_content tr blocks).length = blocks.length ∧
    ∀ i : ℕ, ∃ t : Str,
      (translate_content tr blocks).getD i default
        = { blocks.getD i default with text := t } := by
  refine ⟨runBatches_length tr blocks (makeBatches blocks) blocks 0, ?_⟩
  intro i
  exact ⟨((translate_content tr blocks).getD i default).text,
    block_eq_text_update (size_getD_runBatches tr blocks (makeBatches blocks) blocks 0 i)⟩

/-- C5: within each batch the member indices are strictly increasing (hence
distinct) and are valid positions of the input, and the concatenation of the
member indices over all batches, in batch order, is exactly the list of
positions of the fragments whose stripped text is non-empty, each once. -/
theorem C5_member_indices (blocks : List Block) :
    (∀ b ∈ makeBatches blocks,
      b.indices.Pairwise (· < ·) ∧ ∀ idx ∈ b.indices, idx < blocks.length) ∧
    batchIndices (makeBatches blocks) = nonEmptyIndices blocks := by
  refine ⟨?_, makeBatches_indices blocks⟩
  intro b hb
  refine ⟨(pairwise_batchIndices blocks).sublist (batch_indices_sublist blocks b hb), ?_⟩
  intro idx hidx
  exact mem_batchIndices_bound blocks idx ((batch_indices_sublist blocks b hb).subset hidx)

/-- Witness for C5 at the spec scenario input. -/
theorem C5_member_indices_witness :
    (⟨"Hello\n|||\nworld\n|||\nTest".data, [0, 1, 3]⟩ : Batch) ∈ makeBatches exBlocks ∧
    (([0, 1, 3] : List ℕ).Pairwise (· < ·) ∧
      ∀ idx ∈ ([0, 1, 3] : List ℕ), idx < exBlocks.length) ∧
    batchIndices (makeBatches exBlocks) = nonEmptyIndices exBlocks :=
  ⟨by decide,
    (C5_member_indices exBlocks).1
      ⟨"Hello\n|||\nworld\n|||\nTest".data, [0, 1, 3]⟩ (by decide),
    (C5_member_indices exBlocks).2⟩

/-- C6: a fragment whose text is empty or whitespace-only belongs to no
batch's member indices (so no client call is made for it) and is returned
with its original text unchanged, whatever the client does. -/
theorem C6_empty_fragment_passthrough (tr : ℕ → Str → Option Str)
    (blocks : List Block) (i : ℕ)
    (h : pyStrip ((blocks.getD i default).text) = []) :
    (∀ b ∈ makeBatches blocks, i ∉ b.indices) ∧
    (translate_content tr blocks).getD i default = blocks.getD i default := by
  have hnot : i ∉ batchIndices (makeBatches blocks) :=
    fun hmem => mem_batchIndices_nonEmpty blocks i hmem h
  have hall : ∀ b ∈ makeBatches blocks, i ∉ b.indices :=
    fun b hb hib => hnot (mem_batchIndices_of _ b hb i hib)
  exact ⟨hall, getD_runBatches_not_mem tr blocks (makeBatches blocks) blocks 0 i
    default hall⟩

/-- Witness for C6: the empty third fragment of the scenario input, under a
client that raises on every call. -/
theorem C6_empty_fragment_passthrough_witness :
    pyStrip ((exBlocks.getD 2 default).text) = [] ∧
    (∀ b ∈ makeBatches exBlocks, 2 ∉ b.indices) ∧
    (translate_content (fun _ _ => none) exBlocks).getD 2 default
      = exBlocks.getD 2 default := by
  have h := C6_empty_fragment_passthrough (fun _ _ => none) exBlocks 2 (by decide)
  exact ⟨by decide, h.1, h.2⟩

/-- C7: `translate_content` never mutates the input (the model is a pure
function of it: the input value is unchanged by construction, matching the
copy made by `results = [b.copy() for b in content_blocks]`), and the
structural `size` of every output fragment equals that of the corresponding
input fragment: only `text` can differ. -/
theorem C7_structural_size_frame (tr : ℕ → Str → Option Str)
    (blocks : List Block) :
    (translate_content tr blocks).length = blocks.length ∧
    ∀ i : ℕ, ((translate_content tr blocks).getD i default).size
      = (blocks.getD i default).size :=
  ⟨runBatches_length tr blocks (makeBatches blocks) blocks 0,
   fun i => size_getD_runBatches tr blocks (makeBatches blocks) blocks 0 i⟩

/-- C9: when every fragment strips to empty (in particular for the empty
input), no batch is formed, the client is never called, and the result is a
copy equal to the input. -/
theorem C9_all_empty_noop (tr : ℕ → Str → Option Str) (blocks : List Block)
    (hall : ∀ b ∈ blocks, pyStrip b.text = []) :
    makeBatches blocks = [] ∧
    translate_content tr blocks = blocks ∧
    translateCalls tr blocks = 0 := by
  have hmb : makeBatches blocks = [] := by
    unfold makeBatches
    rw [batchLoop_all_empty blocks hall 0 ⟨[], [], [], 0⟩]
    rfl
  refine ⟨hmb, ?_, ?_⟩
  · unfold translate_content
    rw [hmb]
    rfl
  · unfold translateCalls
    rw [hmb]
    rfl

/-- Witness for C9 at a two-fragment whitespace-only input. -/
theorem C9_all_empty_noop_witness :
    (∀ b ∈ exEmptyBlocks, pyStrip b.text = []) ∧
    makeBatches exEmptyBlocks = [] ∧
    translate_content echoTr exEmptyBlocks = exEmptyBlocks ∧
    translateCalls echoTr exEmptyBlocks = 0 := by
  have h := C9_all_empty_noop echoTr exEmptyBlocks (by decide)
  exact ⟨by decide, h.1, h.2.1, h.2.2⟩

/-- C10: for a fixed (deterministic) client function, `translate_content` is
deterministic: equal inputs give equal outputs. -/
theorem C10_deterministic (tr : ℕ → Str → Option Str) (b1 b2 : List Block)
    (h : b1 = b2) : translate_content tr b1 = translate_content tr b2 := by
  rw [h]

/-- Witness for C10 at the scenario input. -/
theorem C10_deterministic_witness :
    exBlocks = exBlocks ∧
    translate_content echoTr exBlocks = translate_content echoTr exBlocks :=
  ⟨rfl, C10_deterministic echoTr exBlocks exBlocks rfl⟩

/-- C2: when the client's answer for the `m`-th batch (at whatever call
number the pipeline has reached before that batch) splits on the separator
core and strips into exactly as many parts as the batch has member indices,
`translate_content` assigns the `j`-th stripped part to the text of the
result at the `j`-th member index, in order, and that batch costs exactly
one client call. -/
theorem C2_fast_path_scatter (tr : ℕ → Str → Option Str) (blocks : List Block)
    (m : ℕ) (hm : m < (makeBatches blocks).length) (chunk : Str)
    (hcall : tr (runBatches tr blocks ((makeBatches blocks).take m) blocks 0).2
        ((makeBatches blocks).getD m default).text = some chunk)
    (haligned : ((split3Bars chunk).map pyStrip).length
        = ((makeBatches blocks).getD m default).indices.length) :
    (runBatches tr blocks ((makeBatches blocks).take (m + 1)) blocks 0).2
      = (runBatches tr blocks ((makeBatches blocks).take m) blocks 0).2 + 1 ∧
    ∀ j, j < ((makeBatches blocks).getD m default).indices.length →
      (translate_content tr blocks).getD
          (((makeBatches blocks).getD m default).indices.getD j 0) default
        = { blocks.getD
              (((makeBatches blocks).getD m default).indices.getD j 0) default with
            text := ((split3Bars chunk).map pyStrip).getD j [] } := by
  obtain ⟨hsplit, htake, hmem, hdisj⟩ := batch_decompose blocks m hm
  have hdistb : ((makeBatches blocks).getD m default).indices.Pairwise (· ≠ ·) :=
    ((pairwise_batchIndices blocks).sublist
      (batch_indices_sublist blocks _ hmem)).imp (fun hlt => ne_of_lt hlt)
  have hvalidb : ∀ x ∈ ((makeBatches blocks).getD m default).indices,
      x < blocks.length :=
    fun x hx => mem_batchIndices_bound blocks x (mem_batchIndices_of _ _ hmem x hx)
  constructor
  · rw [htake, runBatches_append]
    show (processBatch tr blocks ((makeBatches blocks).getD m default)
        (runBatches tr blocks ((makeBatches blocks).take m) blocks 0).1
        (runBatches tr blocks ((makeBatches blocks).take m) blocks 0).2).2 = _
    unfold processBatch
    rw [hcall]
    simp only [haligned, if_true]
  · intro j hj
    have hfinal : translate_content tr blocks
        = (runBatches tr blocks
            ((makeBatches blocks).take m
              ++ (makeBatches blocks).getD m default
                :: (makeBatches blocks).drop (m + 1)) blocks 0).1 := by
      unfold translate_content
      rw [← hsplit]
    rw [hfinal]
    exact runBatches_batch_fast tr blocks _ _ _ blocks chunk hdistb hvalidb
      (fun x hx => (hdisj x hx).1) (fun x hx => (hdisj x hx).2) hcall haligned j hj

/-- Witness for C2: the spec scenario input under the echo client; the only
batch splits into three parts for three members, the batch costs one call,
and member position 1 receives the second stripped part. -/
theorem C2_fast_path_scatter_witness :
    0 < (makeBatches exBlocks).length ∧
    echoTr (runBatches echoTr exBlocks ((makeBatches exBlocks).take 0) exBlocks 0).2
        ((makeBatches exBlocks).getD 0 default).text
      = some "Hello\n|||\nworld\n|||\nTest".data ∧
    ((split3Bars "Hello\n|||\nworld\n|||\nTest".data).map pyStrip).length
      = ((makeBatches exBlocks).getD 0 default).indices.length ∧
    (runBatches echoTr exBlocks ((makeBatches exBlocks).take (0 + 1)) exBlocks 0).2
      = (runBatches echoTr exBlocks ((makeBatches exBlocks).take 0) exBlocks 0).2 + 1 ∧
    (translate_content echoTr exBlocks).getD
        (((makeBatches exBlocks).getD 0 default).indices.getD 1 0) default
      = { exBlocks.getD
            (((makeBatches exBlocks).getD 0 default).indices.getD 1 0) default with
          text := ((split3Bars "Hello\n|||\nworld\n|||\nTest".data).map pyStrip).getD 1 [] } :=
  ⟨by decide, by decide, by decide,
    (C2_fast_path_scatter echoTr exBlocks 0 (by decide)
      "Hello\n|||\nworld\n|||\nTest".data (by decide) (by decide)).1,
    (C2_fast_path_scatter echoTr exBlocks 0 (by decide)
      "Hello\n|||\nworld\n|||\nTest".data (by decide) (by decide)).2 1 (by decide)⟩

/-- C3 as amended: when the `m`-th batch's combined call raises or its
answer splits into the wrong number of parts, the pipeline falls back to one
independent client call per member index, on that fragment's original
unstripped text `content_blocks[idx]['text']` (the code does not strip it
here); a successful per-member call has its answer assigned, a raising one
leaves the fragment's original text in place; the batch costs one combined
call plus one call per member, and the pipeline always returns a
full-length result (it models a function that cannot raise). -/
theorem C3_fallback_per_member (tr : ℕ → Str → Option Str) (blocks : List Block)
    (m : ℕ) (hm : m < (makeBatches blocks).length)
    (hfail : tr (runBatches tr blocks ((makeBatches blocks).take m) blocks 0).2
        ((makeBatches blocks).getD m default).text = none ∨
      ∃ chunk,
        tr (runBatches tr blocks ((makeBatches blocks).take m) blocks 0).2
            ((makeBatches blocks).getD m default).text = some chunk ∧
        ((split3Bars chunk).map pyStrip).length
          ≠ ((makeBatches blocks).getD m default).indices.length) :
    (runBatches tr blocks ((makeBatches blocks).take (m + 1)) blocks 0).2
      = (runBatches tr blocks ((makeBatches blocks).take m) blocks 0).2 + 1
        + ((makeBatches blocks).getD m default).indices.length ∧
    (∀ j, j < ((makeBatches blocks).getD m default).indices.length →
      (translate_content tr blocks).getD
          (((makeBatches blocks).getD m default).indices.getD j 0) default
        = (tr ((runBatches tr blocks ((makeBatches blocks).take m) blocks 0).2 + 1 + j)
            (blocks.getD
              (((makeBatches blocks).getD m default).indices.getD j 0) default).text).elim
            (blocks.getD
              (((makeBatches blocks).getD m default).indices.getD j 0) default)
            (fun t =>
              { blocks.getD
                  (((makeBatches blocks).getD m default).indices.getD j 0) default with
                text := t })) ∧
    (translate_content tr blocks).length = blocks.length := by
  obtain ⟨hsplit, htake, hmem, hdisj⟩ := batch_decompose blocks m hm
  have hdistb : ((makeBatches blocks).getD m default).indices.Pairwise (· ≠ ·) :=
    ((pairwise_batchIndices blocks).sublist
      (batch_indices_sublist blocks _ hmem)).imp (fun hlt => ne_of_lt hlt)
  have hvalidb : ∀ x ∈ ((makeBatches blocks).getD m default).indices,
      x < blocks.length :=
    fun x hx => mem_batchIndices_bound blocks x (mem_batchIndices_of _ _ hmem x hx)
  obtain ⟨hpb, hvals⟩ := runBatches_batch_fallback tr blocks
    ((makeBatches blocks).take m) ((makeBatches blocks).drop (m + 1))
    ((makeBatches blocks).getD m default) blocks hdistb hvalidb
    (fun x hx => (hdisj x hx).1) (fun x hx => (hdisj x hx).2) hfail
  refine ⟨?_, ?_, runBatches_length tr blocks (makeBatches blocks) blocks 0⟩
  · rw [htake, runBatches_append]
    show (processBatch tr blocks ((makeBatches blocks).getD m default)
        (runBatches tr blocks ((makeBatches blocks).take m) blocks 0).1
        (runBatches tr blocks ((makeBatches blocks).take m) blocks 0).2).2 = _
    rw [hpb, fallbackMembers_calls]
  · intro j hj
    have hfinal : translate_content tr blocks
        = (runBatches tr blocks
            ((makeBatches blocks).take m
              ++ (makeBatches blocks).getD m default
                :: (makeBatches blocks).drop (m + 1)) blocks 0).1 := by
      unfold translate_content
      rw [← hsplit]
    rw [hfinal]
    exact hvals j hj

/-- Witness for C3: the spec scenario input under a client that raises on
the combined call (call 0) and echoes afterwards; each member is then
translated individually (three extra calls) and member position 1 receives
the echo of its original text. -/
theorem C3_fallback_per_member_witness :
    0 < (makeBatches exBlocks).length ∧
    ((fun k (s : Str) => if k = 0 then none else some s) 
        (runBatches (fun k (s : Str) => if k = 0 then none else some s) exBlocks
          ((makeBatches exBlocks).take 0) exBlocks 0).2
        ((makeBatches exBlocks).getD 0 default).text = none ∨
      ∃ chunk,
        (fun k (s : Str) => if k = 0 then none else some s)
            (runBatches (fun k (s : Str) => if k = 0 then none else some s) exBlocks
              ((makeBatches exBlocks).take 0) exBlocks 0).2
            ((makeBatches exBlocks).getD 0 default).text = some chunk ∧
        ((split3Bars chunk).map pyStrip).length
          ≠ ((makeBatches exBlocks).getD 0 default).indices.length) ∧
    (runBatches (fun k (s : Str) => if k = 0 then none else some s) exBlocks
        ((makeBatches exBlocks).take (0 + 1)) exBlocks 0).2
      = (runBatches (fun k (s : Str) => if k = 0 then none else some s) exBlocks
          ((makeBatches exBlocks).take 0) exBlocks 0).2 + 1
        + ((makeBatches exBlocks).getD 0 default).indices.length ∧
    (translate_content (fun k (s : Str) => if k = 0 then none else some s)
        exBlocks).getD
        (((makeBatches exBlocks).getD 0 default).indices.getD 1 0) default
      = ((fun k (s : Str) => if k = 0 then none else some s)
          ((runBatches (fun k (s : Str) => if k = 0 then none else some s) exBlocks
            ((makeBatches exBlocks).take 0) exBlocks 0).2 + 1 + 1)
          (exBlocks.getD
            (((makeBatches exBlocks).getD 0 default).indices.getD 1 0) default).text).elim
          (exBlocks.getD
            (((makeBatches exBlocks).getD 0 default).indices.getD 1 0) default)
          (fun t =>
            { exBlocks.getD
                (((makeBatches exBlocks).getD 0 default).indices.getD 1 0) default with
              text := t }) :=
  ⟨by decide, Or.inl (by decide),
    (C3_fallback_per_member (fun k (s : Str) => if k = 0 then none else some s)
      exBlocks 0 (by decide) (Or.inl (by decide))).1,
    (C3_fallback_per_member (fun k (s : Str) => if k = 0 then none else some s)
      exBlocks 0 (by decide) (Or.inl (by decide))).2.1 1 (by decide)⟩

/-- Counterexample to C3 as stated: the fallback does NOT call the client on
the fragment's stripped text. For the one-fragment input `" hi "` the batch
text is the stripped `"hi"`; the client `exTrC3` answers `"a|||b"` on
`"hi"` (two parts for one member, forcing the per-member fallback) and
`"ok"` on the unstripped `" hi "`. The fallback assigns `"ok"`: had it
called the client on the stripped text as the claim states, every such call
would have returned `"a|||b"`, not `"ok"`. -/
theorem C3_counterexample :
    translate_content (fun _ s => exTrC3 s) [⟨" hi ".data, 12⟩]
      = [⟨"ok".data, 12⟩] ∧
    exTrC3 (pyStrip " hi ".data) = some "a|||b".data ∧
    ("ok".data : Str) ≠ "a|||b".data :=
  ⟨by decide, by decide, by decide⟩

/-- Counterexample to C4 as stated: with trimmed lengths 3000, 1500, 2500
the batcher produces a second batch with two members whose combined text is
1500 + 5 + 2500 = 4005 characters, exceeding the 4000-character threshold
(the size check `current_char_count + len(text) > 4000` does not count the
separator that joining the new member adds). -/
theorem C4_counterexample :
    (⟨List.replicate 1500 'b' ++ SEP ++ List.replicate 2500 'c', [1, 2]⟩ : Batch)
      ∈ makeBatches exBudget ∧
    2 ≤ ([1, 2] : List ℕ).length ∧
    4000 < (List.replicate 1500 'b' ++ SEP ++ List.replicate 2500 'c').length := by
  refine ⟨?_, by norm_num, ?_⟩
  · rw [makeBatches_exBudget]
    exact List.mem_cons_of_mem _ (List.mem_cons_self _ _)
  · rw [List.length_append, List.length_append, List.length_replicate,
      List.length_replicate]
    have h5 : SEP.length = 5 := rfl
    omega

/-- C4 as amended: every batch either has combined text length at most the
threshold plus one separator length (4000 + 5 = 4005; the size check omits
the separator of the member being added) or is a single-member batch (which
may be arbitrarily long, since a lone oversized fragment is never split);
and two fragments of trimmed length 3000 each are still placed in two
separate single-member batches. -/
theorem C4_budget_amended (blocks : List Block) :
    (∀ b ∈ makeBatches blocks,
      b.text.length ≤ 4000 + SEP.length ∨ b.indices.length ≤ 1) ∧
    (makeBatches exTwo3000).map Batch.indices = [[0], [1]] := by
  refine ⟨makeBatches_budget blocks, ?_⟩
  rw [makeBatches_exTwo3000]
  rfl

/-- Witness for C4 at the spec scenario input: its single batch is within
the budget. -/
theorem C4_budget_amended_witness :
    (⟨"Hello\n|||\nworld\n|||\nTest".data, [0, 1, 3]⟩ : Batch) ∈ makeBatches exBlocks ∧
    ((⟨"Hello\n|||\nworld\n|||\nTest".data, [0, 1, 3]⟩ : Batch).text.length
        ≤ 4000 + SEP.length ∨
      (⟨"Hello\n|||\nworld\n|||\nTest".data, [0, 1, 3]⟩ : Batch).indices.length ≤ 1) :=
  ⟨by decide,
    (C4_budget_amended exBlocks).1
      ⟨"Hello\n|||\nworld\n|||\nTest".data, [0, 1, 3]⟩ (by decide)⟩

/-- Counterexample to C8 as stated: with sizes 12, 12, 22 the mode is 12 and
the third block's size 22 is `≥ mode + 10`, so the claim demands a level-1
heading; the code computes `diff = 10` and takes the `diff > 5` branch,
emitting a level-2 heading (`create_docx` uses strict comparisons
`diff > 10` and `diff > 5`, not the `≥` of the claim). -/
theorem C8_counterexample :
    pyMode (exHeading.map Block.size) = 12 ∧
    (22 : ℚ) ≥ pyMode (exHeading.map Block.size) + 10 ∧
    create_docx exHeading
      = [DocxPara.paragraph "a".data, DocxPara.paragraph "b".data,
         DocxPara.heading 2 "c".data] := by
  have hmode : pyMode (List.map Block.size exHeading) = 12 := by decide
  have hra : renderBlock 12 ⟨"a".data, 12⟩ = DocxPara.paragraph "a".data := by
    unfold renderBlock headingLevel
    norm_num
  have hrb : renderBlock 12 ⟨"b".data, 12⟩ = DocxPara.paragraph "b".data := by
    unfold renderBlock headingLevel
    norm_num
  have hrc : renderBlock 12 ⟨"c".data, 22⟩ = DocxPara.heading 2 "c".data := by
    unfold renderBlock headingLevel
    norm_num
  refine ⟨hmode, by rw [hmode]; norm_num, ?_⟩
  show List.map (renderBlock (pyMode (List.map Block.size exHeading))) exHeading = _
  rw [hmode]
  show [renderBlock 12 ⟨"a".data, 12⟩, renderBlock 12 ⟨"b".data, 12⟩,
    renderBlock 12 ⟨"c".data, 22⟩] = _
  rw [hra, hrb, hrc]

/-- C8 as amended: for a non-empty block list the writer computes a mode of
the sizes (an element attaining the maximal multiplicity) and emits, for
each block, a level-1 heading when its size exceeds mode + 10 strictly, a
level-2 heading when it exceeds mode + 5 strictly, a level-3 heading when it
is at least mode + 2, and a body paragraph otherwise. -/
theorem C8_heading_levels (blocks : List Block) (hne : blocks ≠ []) :
    (pyMode (blocks.map Block.size) ∈ blocks.map Block.size ∧
      ∀ x ∈ blocks.map Block.size,
        (blocks.map Block.size).count x
          ≤ (blocks.map Block.size).count (pyMode (blocks.map Block.size))) ∧
    (create_docx blocks).length = blocks.length ∧
    ∀ i, i < blocks.length →
      (create_docx blocks).getD i (DocxPara.paragraph [])
        = (if (blocks.getD i default).size > pyMode (blocks.map Block.size) + 10 then
            DocxPara.heading 1 (blocks.getD i default).text
          else if (blocks.getD i default).size > pyMode (blocks.map Block.size) + 5 then
            DocxPara.heading 2 (blocks.getD i default).text
          else if (blocks.getD i default).size ≥ pyMode (blocks.map Block.size) + 2 then
            DocxPara.heading 3 (blocks.getD i default).text
          else DocxPara.paragraph (blocks.getD i default).text) := by
  have hne2 : blocks.map Block.size ≠ [] := by
    intro h
    exact hne (List.map_eq_nil_iff.1 h)
  refine ⟨pyMode_spec _ hne2, ?_, ?_⟩
  · show (blocks.map (renderBlock (pyMode (blocks.map Block.size)))).length
        = blocks.length
    exact List.length_map _ _
  · intro i hi
    show (blocks.map (renderBlock (pyMode (blocks.map Block.size)))).getD i
        (DocxPara.paragraph []) = _
    rw [getD_map_lt _ blocks i hi _ default]
    exact renderBlock_cases _ _

/-- Witness for C8 at the sizes 12, 12, 22. -/
theorem C8_heading_levels_witness :
    exHeading ≠ [] ∧
    (create_docx exHeading).length = exHeading.length ∧
    (create_docx exHeading).getD 2 (DocxPara.paragraph [])
      = (if (exHeading.getD 2 default).size > pyMode (exHeading.map Block.size) + 10 then
          DocxPara.heading 1 (exHeading.getD 2 default).text
        else if (exHeading.getD 2 default).size > pyMode (exHeading.map Block.size) + 5 then
          DocxPara.heading 2 (exHeading.getD 2 default).text
        else if (exHeading.getD 2 default).size ≥ pyMode (exHeading.map Block.size) + 2 then
          DocxPara.heading 3 (exHeading.getD 2 default).text
        else DocxPara.paragraph (exHeading.getD 2 default).text) :=
  ⟨by decide, (C8_heading_levels exHeading (by decide)).2.1,
    (C8_heading_levels exHeading (by decide)).2.2 2 (by decide)⟩
